import Mathlib

/-!
Verification of the Best-Fit fixed-partition memory simulator
(`src/BestFitSimulatorInC++.cpp`).

The C++ program keeps three global vectors, `memory : vector<Partition>`,
`waitingQueue : vector<Job>` and `deallocatedJobs : vector<Job>`, and
mutates them through `allocateJob`, `tryAllocateWaiting`, `deallocateJob`
and the interactive `main` loop.  Here the same data is modelled as a
`SimState` record threaded explicitly through pure functions that mirror
the C++ control flow statement by statement.  C++ `int` fields become
unbounded `Int`; where the source compares against `INT_MAX` the same
literal is used.
-/

/-- Mirror of the C++ `struct Partition`. -/
structure Partition where
  id : Int
  size : Int
  isFree : Bool
  jobNumber : Int
  jobSize : Int
  internalFragment : Int
deriving DecidableEq

/-- Mirror of the C++ `struct Job`. -/
structure Job where
  jobNumber : Int
  jobSize : Int
deriving DecidableEq

/-- The three global vectors of the program plus the `jobCounter`
local to `main`, gathered into one explicit state record. -/
structure SimState where
  memory : List Partition
  waitingQueue : List Job
  deallocatedJobs : List Job
  jobCounter : Int
deriving DecidableEq

/-- `INT_MAX` from `<climits>`, the initial value of `smallestFit`. -/
def INT_MAX : Int := 2147483647

/-- The best-fit scan loop shared by `allocateJob` and
`tryAllocateWaiting`: walk the partitions from index `i` carrying the
accumulator `(bestIndex, smallestFit)`; a free partition whose size is at
least the request updates the accumulator exactly when its leftover is
strictly smaller than `smallestFit`. -/
def bestFitAux (js : Int) : List Partition → Nat → Option Nat × Int → Option Nat × Int
  | [], _, acc => acc
  | p :: rest, i, acc =>
      if p.isFree = true ∧ js ≤ p.size then
        if p.size - js < acc.2 then bestFitAux js rest (i + 1) (some i, p.size - js)
        else bestFitAux js rest (i + 1) acc
      else bestFitAux js rest (i + 1) acc

/-- The best-fit search: the scan of `allocateJob` (lines 139–147),
starting from `bestIndex = -1` (here `none`) and `smallestFit = INT_MAX`,
returning the chosen partition index if any. -/
def findBestFit (mem : List Partition) (js : Int) : Option Nat :=
  (bestFitAux js mem 0 (none, INT_MAX)).1

/-- The four assignments of lines 158–161 / 189–192: mark partition `i`
used by `job` and recompute its internal fragment. -/
def placeAt (job : Job) : List Partition → Nat → List Partition
  | [], _ => []
  | p :: rest, 0 =>
      { p with isFree := false, jobNumber := job.jobNumber,
               jobSize := job.jobSize, internalFragment := p.size - job.jobSize } :: rest
  | p :: rest, n + 1 => p :: placeAt job rest n

/-- `allocateJob`: best-fit the job into `memory`, or push it onto the
waiting queue when no partition fits. -/
def allocateJob (s : SimState) (job : Job) : SimState :=
  match findBestFit s.memory job.jobSize with
  | none => { s with waitingQueue := s.waitingQueue ++ [job] }
  | some i => { s with memory := placeAt job s.memory i }

/-- One iteration of the `tryAllocateWaiting` loop: re-run the best-fit
scan for job `j` against the current memory; on success place it, on
failure append it to the `remaining` list. -/
def sweepStep (acc : List Partition × List Job) (j : Job) : List Partition × List Job :=
  match findBestFit acc.1 j.jobSize with
  | some i => (placeAt j acc.1 i, acc.2)
  | none => (acc.1, acc.2 ++ [j])

/-- The whole retry sweep of `tryAllocateWaiting` (lines 174–203): fold
over the queued jobs in order, threading the memory and accumulating the
jobs that still do not fit; the result is the new memory and the new
queue contents. -/
def drainRetry (mem : List Partition) (wq : List Job) : List Partition × List Job :=
  wq.foldl sweepStep (mem, [])

/-- `tryAllocateWaiting` as a state transformer: `waitingQueue = remaining`
after the sweep. -/
def tryAllocateWaiting (s : SimState) : SimState :=
  let r := drainRetry s.memory s.waitingQueue
  { s with memory := r.1, waitingQueue := r.2 }

/-- Resetting a partition to the free state (lines 218–221). -/
def freePartition (p : Partition) : Partition :=
  { p with isFree := true, jobNumber := -1, jobSize := 0, internalFragment := 0 }

/-- The scan of `deallocateJob` (lines 209–227): find the first used
partition holding `n`, free it, and return the new memory together with
the released job (captured before the reset, line 215). -/
def releaseScan (n : Int) : List Partition → Option (List Partition × Job)
  | [] => none
  | p :: rest =>
      if p.isFree = false ∧ p.jobNumber = n then
        some (freePartition p :: rest, { jobNumber := p.jobNumber, jobSize := p.jobSize })
      else
        match releaseScan n rest with
        | none => none
        | some (rest', job) => some (p :: rest', job)

/-- `deallocateJob`: on success append the released job to
`deallocatedJobs`, free the partition, and run one retry sweep; the `Bool`
records whether the job was found (`false` = the "Job not found." path,
which leaves the state untouched). -/
def deallocateJob (s : SimState) (n : Int) : SimState × Bool :=
  match releaseScan n s.memory with
  | none => (s, false)
  | some (mem', job) =>
      (tryAllocateWaiting
        { s with memory := mem', deallocatedJobs := s.deallocatedJobs ++ [job] }, true)

/-- The utilization computed by `showStatus` (lines 119–125): sum, over
used partitions only, of `jobSize / size * 100`, then divide by the total
number of partitions.  The C++ `double` arithmetic is modelled exactly
over `ℚ`. -/
def utilization (mem : List Partition) : ℚ :=
  (mem.foldl (fun acc p => if p.isFree then acc else acc + ((p.jobSize : ℚ) / (p.size : ℚ)) * 100) 0)
    / (mem.length : ℚ)

/-- The spec's wording of utilization (§4.4): the average over all
partitions of the per-partition percentage, a free partition contributing
`0`, divided by the total partition count. -/
def utilization_spec (mem : List Partition) : ℚ :=
  ((mem.map (fun p => if p.isFree then (0 : ℚ) else ((p.jobSize : ℚ) / (p.size : ℚ)) * 100)).sum)
    / (mem.length : ℚ)

/-- The size-prompt loop of `main` (lines 241–245): skip entered values
`≤ 0` ("Invalid size. Try again.") until a positive one arrives; `none`
when the supplied input list is exhausted first. -/
def readValidSize : List Int → Option (Int × List Int)
  | [] => none
  | x :: rest => if x ≤ 0 then readValidSize rest else some (x, rest)

/-- The setup loop of `main` (lines 239–248): build `n` partitions with
ids `i + 1`, each from the next validated size, all initially free with
`jobNumber = -1`, `jobSize = 0`, `internalFragment = 0`. -/
def createPool : Nat → Nat → List Int → Option (List Partition)
  | 0, _, _ => some []
  | k + 1, i, inputs =>
      match readValidSize inputs with
      | none => none
      | some (s, rest) =>
          match createPool k (i + 1) rest with
          | none => none
          | some ps =>
              some ({ id := (i : Int) + 1, size := s, isFree := true,
                      jobNumber := -1, jobSize := 0, internalFragment := 0 } :: ps)

/-- Pool creation as `main` performs it: the entered partition count `n`
is used unvalidated as the loop bound (`for (int i = 0; i < n; i++)`), so
a non-positive `n` makes zero iterations. -/
def mkPool (n : Int) (inputs : List Int) : Option (List Partition) :=
  createPool n.toNat 0 inputs

/-- `submit`: the `choice == 1` branch of the menu loop (lines 263–275):
assign the next job number, post-increment the counter, and attempt
allocation (the size has already been validated positive by the prompt
loop). -/
def submitOp (s : SimState) (size : Int) : SimState :=
  let job : Job := { jobNumber := s.jobCounter, jobSize := size }
  let s' := allocateJob s job
  { s' with jobCounter := s.jobCounter + 1 }

/-- `release`: the `choice == 2` branch, discarding the found/not-found
report. -/
def releaseOp (s : SimState) (n : Int) : SimState :=
  (deallocateJob s n).1

/-- One menu command: submit a (validated) job size, release a job
number, or show the status report (read-only). -/
inductive Op where
  | submit (size : Int)
  | release (n : Int)
  | report
deriving DecidableEq

/-- Apply one menu command to the state; `report` (`showStatus`) does not
change it. -/
def applyOp (s : SimState) : Op → SimState
  | .submit size => submitOp s size
  | .release n => releaseOp s n
  | .report => s

/-- The job numbers assigned while running `ops` from `s`: each submit
records the counter value it hands to the new job. -/
def assignedNumbers (s : SimState) : List Op → List Int
  | [] => []
  | op :: ops =>
      match op with
      | .submit _ => s.jobCounter :: assignedNumbers (applyOp s op) ops
      | _ => assignedNumbers (applyOp s op) ops

/-- The number of submit commands in a command list. -/
def countSubmits : List Op → Nat
  | [] => 0
  | .submit _ :: ops => countSubmits ops + 1
  | _ :: ops => countSubmits ops

/-- The consecutive integers `a, a+1, ..., a+n-1`. -/
def intSeq (a : Int) : Nat → List Int
  | 0 => []
  | n + 1 => a :: intSeq (a + 1) n

/-- A state as `main` starts the menu loop: a pool freshly built by the
setup loop, empty queue and history, `jobCounter = 1`. -/
def InitState (s : SimState) : Prop :=
  ∃ (n : Int) (inputs : List Int) (pool : List Partition),
    mkPool n inputs = some pool ∧
    s = { memory := pool, waitingQueue := [], deallocatedJobs := [], jobCounter := 1 }

/-- One accepted menu command, as `main` issues them: submitted sizes
have been validated positive by the prompt loop. -/
inductive Step : SimState → SimState → Prop where
  | submit (s : SimState) (size : Int) (h : 0 < size) : Step s (submitOp s size)
  | release (s : SimState) (n : Int) : Step s (releaseOp s n)
  | report (s : SimState) : Step s s

/-- States reachable by running any sequence of menu commands from a
fresh setup. -/
inductive Reachable : SimState → Prop where
  | init (s : SimState) (h : InitState s) : Reachable s
  | step (s t : SimState) (hs : Reachable s) (st : Step s t) : Reachable t

/-- The job numbers of the occupied partitions, in pool order. -/
def occupantNumbers (mem : List Partition) : List Int :=
  (mem.filter (fun p => !p.isFree)).map (fun p => p.jobNumber)

/-- The job numbers in the waiting queue, in queue order. -/
def queueNumbers (wq : List Job) : List Int :=
  wq.map (fun j => j.jobNumber)

/-- The fragment invariant of a pool: every partition has a non-negative
internal fragment, and a free partition's fragment is zero. -/
def FragInv (mem : List Partition) : Prop :=
  ∀ p ∈ mem, 0 ≤ p.internalFragment ∧ (p.isFree = true → p.internalFragment = 0)

/-- The inductive invariant of the engine: fragments are well-formed, a
job number occurs at most once across occupants and queue, and every
such number is below the next number to be assigned. -/
def StateInv (s : SimState) : Prop :=
  FragInv s.memory ∧
  (occupantNumbers s.memory ++ queueNumbers s.waitingQueue).Nodup ∧
  (∀ x ∈ occupantNumbers s.memory ++ queueNumbers s.waitingQueue, x < s.jobCounter)

/-- Concrete fixture from §8 of the spec: free partitions of capacities
10, 4, 8 with ids 1, 2, 3 — exactly the pool `mkPool 3 [10, 4, 8]`
builds. -/
def demoPool : List Partition :=
  [{ id := 1, size := 10, isFree := true, jobNumber := -1, jobSize := 0, internalFragment := 0 },
   { id := 2, size := 4, isFree := true, jobNumber := -1, jobSize := 0, internalFragment := 0 },
   { id := 3, size := 8, isFree := true, jobNumber := -1, jobSize := 0, internalFragment := 0 }]

/-- The state `main` reaches after setting up `demoPool`. -/
def demoState : SimState :=
  { memory := demoPool, waitingQueue := [], deallocatedJobs := [], jobCounter := 1 }

/-- Concrete fixture from §8's reclamation-cascade test: a capacity-5
partition occupied by job 1 (size 5), a free capacity-10 partition, and
job 2 (size 8) waiting. -/
def demoBusy : SimState :=
  { memory :=
      [{ id := 1, size := 5, isFree := false, jobNumber := 1, jobSize := 5, internalFragment := 0 },
       { id := 2, size := 10, isFree := true, jobNumber := -1, jobSize := 0, internalFragment := 0 }],
    waitingQueue := [{ jobNumber := 2, jobSize := 8 }],
    deallocatedJobs := [],
    jobCounter := 3 }

/-- One unfolding step of the best-fit scan. -/
theorem bestFitAux_cons (js : Int) (p : Partition) (rest : List Partition)
    (i : Nat) (b : Option Nat) (m : Int) :
    bestFitAux js (p :: rest) i (b, m) =
      if p.isFree = true ∧ js ≤ p.size then
        if p.size - js < m then bestFitAux js rest (i + 1) (some i, p.size - js)
        else bestFitAux js rest (i + 1) (b, m)
      else bestFitAux js rest (i + 1) (b, m) := rfl

/-- Full characterisation of the best-fit scan from an arbitrary
accumulator: either no scanned candidate strictly beats `m` and the
accumulator is returned unchanged, or the scan returns the earliest
candidate achieving the minimal leftover among those beating `m`. -/
theorem bestFitAux_spec (js : Int) :
    ∀ (l : List Partition) (i : Nat) (b : Option Nat) (m : Int),
      (bestFitAux js l i (b, m) = (b, m) ∧
        ∀ (d : Nat) (p : Partition),
          l[d]? = some p → p.isFree = true → js ≤ p.size → m ≤ p.size - js)
      ∨ (∃ (d : Nat) (p : Partition),
          l[d]? = some p ∧ p.isFree = true ∧ js ≤ p.size ∧ p.size - js < m ∧
          bestFitAux js l i (b, m) = (some (i + d), p.size - js) ∧
          (∀ (e : Nat) (q : Partition),
            l[e]? = some q → q.isFree = true → js ≤ q.size → p.size - js ≤ q.size - js) ∧
          (∀ (e : Nat) (q : Partition),
            l[e]? = some q → q.isFree = true → js ≤ q.size → q.size - js = p.size - js → d ≤ e)) := by
  intro l
  induction l with
  | nil =>
      intro i b m
      left
      refine ⟨rfl, ?_⟩
      intro d p hd
      simp at hd
  | cons p0 rest ih =>
      intro i b m
      by_cases hc : p0.isFree = true ∧ js ≤ p0.size
      · by_cases hl : p0.size - js < m
        · rcases ih (i + 1) (some i) (p0.size - js) with ⟨heq, hcert⟩ |
            ⟨d, p, hget, hpf, hps, hlt, heq, hmin, htie⟩
          · right
            refine ⟨0, p0, List.getElem?_cons_zero, hc.1, hc.2, hl, ?_, ?_, ?_⟩
            · rw [bestFitAux_cons, if_pos hc, if_pos hl, heq]
              simp
            · intro e q hq hf hs
              cases e with
              | zero =>
                  rw [List.getElem?_cons_zero] at hq
                  injection hq with hq
                  subst hq
                  exact le_refl _
              | succ e' =>
                  rw [List.getElem?_cons_succ] at hq
                  exact hcert e' q hq hf hs
            · intro e q hq hf hs hEq
              exact Nat.zero_le e
          · right
            refine ⟨d + 1, p, ?_, hpf, hps, lt_trans hlt hl, ?_, ?_, ?_⟩
            · rw [List.getElem?_cons_succ]; exact hget
            · have hidx : i + 1 + d = i + (d + 1) := by omega
              rw [bestFitAux_cons, if_pos hc, if_pos hl, heq, hidx]
            · intro e q hq hf hs
              cases e with
              | zero =>
                  rw [List.getElem?_cons_zero] at hq
                  injection hq with hq
                  subst hq
                  exact le_of_lt hlt
              | succ e' =>
                  rw [List.getElem?_cons_succ] at hq
                  exact hmin e' q hq hf hs
            · intro e q hq hf hs hEq
              cases e with
              | zero =>
                  rw [List.getElem?_cons_zero] at hq
                  injection hq with hq
                  subst hq
                  exact absurd hEq (ne_of_gt hlt)
              | succ e' =>
                  rw [List.getElem?_cons_succ] at hq
                  exact Nat.succ_le_succ (htie e' q hq hf hs hEq)
        · rcases ih (i + 1) b m with ⟨heq, hcert⟩ |
            ⟨d, p, hget, hpf, hps, hlt, heq, hmin, htie⟩
          · left
            refine ⟨?_, ?_⟩
            · rw [bestFitAux_cons, if_pos hc, if_neg hl, heq]
            · intro d p hd hf hs
              cases d with
              | zero =>
                  rw [List.getElem?_cons_zero] at hd
                  injection hd with hd
                  subst hd
                  exact le_of_not_lt hl
              | succ d' =>
                  rw [List.getElem?_cons_succ] at hd
                  exact hcert d' p hd hf hs
          · right
            refine ⟨d + 1, p, ?_, hpf, hps, hlt, ?_, ?_, ?_⟩
            · rw [List.getElem?_cons_succ]; exact hget
            · have hidx : i + 1 + d = i + (d + 1) := by omega
              rw [bestFitAux_cons, if_pos hc, if_neg hl, heq, hidx]
            · intro e q hq hf hs
              cases e with
              | zero =>
                  rw [List.getElem?_cons_zero] at hq
                  injection hq with hq
                  subst hq
                  exact le_of_lt (lt_of_lt_of_le hlt (le_of_not_lt hl))
              | succ e' =>
                  rw [List.getElem?_cons_succ] at hq
                  exact hmin e' q hq hf hs
            · intro e q hq hf hs hEq
              cases e with
              | zero =>
                  rw [List.getElem?_cons_zero] at hq
                  injection hq with hq
                  subst hq
                  exact absurd hEq (ne_of_gt (lt_of_lt_of_le hlt (le_of_not_lt hl)))
              | succ e' =>
                  rw [List.getElem?_cons_succ] at hq
                  exact Nat.succ_le_succ (htie e' q hq hf hs hEq)
      · rcases ih (i + 1) b m with ⟨heq, hcert⟩ |
          ⟨d, p, hget, hpf, hps, hlt, heq, hmin, htie⟩
        · left
          refine ⟨?_, ?_⟩
          · rw [bestFitAux_cons, if_neg hc, heq]
          · intro d p hd hf hs
            cases d with
            | zero =>
                rw [List.getElem?_cons_zero] at hd
                injection hd with hd
                subst hd
                exact absurd ⟨hf, hs⟩ hc
            | succ d' =>
                rw [List.getElem?_cons_succ] at hd
                exact hcert d' p hd hf hs
        · right
          refine ⟨d + 1, p, ?_, hpf, hps, hlt, ?_, ?_, ?_⟩
          · rw [List.getElem?_cons_succ]; exact hget
          · have hidx : i + 1 + d = i + (d + 1) := by omega
            rw [bestFitAux_cons, if_neg hc, heq, hidx]
          · intro e q hq hf hs
            cases e with
            | zero =>
                rw [List.getElem?_cons_zero] at hq
                injection hq with hq
                subst hq
                exact absurd ⟨hf, hs⟩ hc
            | succ e' =>
                rw [List.getElem?_cons_succ] at hq
                exact hmin e' q hq hf hs
          · intro e q hq hf hs hEq
            cases e with
            | zero =>
                rw [List.getElem?_cons_zero] at hq
                injection hq with hq
                subst hq
                exact absurd ⟨hf, hs⟩ hc
            | succ e' =>
                rw [List.getElem?_cons_succ] at hq
                exact Nat.succ_le_succ (htie e' q hq hf hs hEq)

/-- Whatever index `findBestFit` returns points at a free partition large
enough for the request, with minimal leftover and least index among
equal-leftover candidates. -/
theorem findBestFit_some_spec (mem : List Partition) (js : Int) (i : Nat)
    (h : findBestFit mem js = some i) :
    ∃ p : Partition, mem[i]? = some p ∧ p.isFree = true ∧ js ≤ p.size ∧
      (∀ (e : Nat) (q : Partition),
        mem[e]? = some q → q.isFree = true → js ≤ q.size → p.size - js ≤ q.size - js) ∧
      (∀ (e : Nat) (q : Partition),
        mem[e]? = some q → q.isFree = true → js ≤ q.size →
          q.size - js = p.size - js → i ≤ e) := by
  rcases bestFitAux_spec js mem 0 none INT_MAX with ⟨heq, _⟩ |
    ⟨d, p, hget, hpf, hps, hlt, heq, hmin, htie⟩
  · unfold findBestFit at h
    rw [heq] at h
    simp at h
  · unfold findBestFit at h
    rw [heq] at h
    have hd : d = i := by simpa using h
    subst hd
    exact ⟨p, hget, hpf, hps, hmin, htie⟩

/-- For the request sizes and partition sizes the program can actually
produce (validated positive size, `int`-bounded capacities), the scan
returns `none` exactly when no free partition is large enough. -/
theorem findBestFit_none_iff (mem : List Partition) (js : Int)
    (hpos : 0 < js) (hrange : ∀ p ∈ mem, p.size ≤ INT_MAX) :
    findBestFit mem js = none ↔ ∀ p ∈ mem, ¬(p.isFree = true ∧ js ≤ p.size) := by
  constructor
  · intro h p hp hcand
    rcases bestFitAux_spec js mem 0 none INT_MAX with ⟨heq, hcert⟩ |
      ⟨d, q, hget, hpf, hps, hlt, heq, hmin, htie⟩
    · rcases List.mem_iff_getElem?.mp hp with ⟨d, hd⟩
      have hbig := hcert d p hd hcand.1 hcand.2
      have hle := hrange p hp
      unfold INT_MAX at hbig hle
      omega
    · unfold findBestFit at h
      rw [heq] at h
      simp at h
  · intro hno
    rcases bestFitAux_spec js mem 0 none INT_MAX with ⟨heq, _⟩ |
      ⟨d, q, hget, hpf, hps, _, _, _, _⟩
    · unfold findBestFit
      rw [heq]
    · have hq : q ∈ mem := List.mem_iff_getElem?.mpr ⟨d, hget⟩
      exact absurd ⟨hpf, hps⟩ (hno q hq)

/-- Placing a job never changes the number of partitions. -/
theorem placeAt_length (job : Job) :
    ∀ (mem : List Partition) (i : Nat), (placeAt job mem i).length = mem.length := by
  intro mem
  induction mem with
  | nil => intro i; cases i <;> rfl
  | cons p rest ih =>
      intro i
      cases i with
      | zero => rfl
      | succ k => simp [placeAt, ih k]

/-- The placed partition after `placeAt`: occupied by the job, fragment
`size - jobSize`. -/
theorem placeAt_getElem_self (job : Job) :
    ∀ (mem : List Partition) (i : Nat) (p : Partition), mem[i]? = some p →
      (placeAt job mem i)[i]? =
        some { p with isFree := false, jobNumber := job.jobNumber,
                      jobSize := job.jobSize, internalFragment := p.size - job.jobSize } := by
  intro mem
  induction mem with
  | nil => intro i p h; simp at h
  | cons q rest ih =>
      intro i p h
      cases i with
      | zero =>
          rw [List.getElem?_cons_zero] at h
          injection h with h
          subst h
          simp [placeAt]
      | succ k =>
          rw [List.getElem?_cons_succ] at h
          simp only [placeAt, List.getElem?_cons_succ]
          exact ih k p h

/-- All other partitions are untouched by `placeAt`. -/
theorem placeAt_getElem_ne (job : Job) :
    ∀ (mem : List Partition) (i k : Nat), k ≠ i →
      (placeAt job mem i)[k]? = mem[k]? := by
  intro mem
  induction mem with
  | nil => intro i k _; cases i <;> rfl
  | cons q rest ih =>
      intro i k hk
      cases i with
      | zero =>
          cases k with
          | zero => exact absurd rfl hk
          | succ k' => simp [placeAt]
      | succ i' =>
          cases k with
          | zero => simp [placeAt]
          | succ k' =>
              simp only [placeAt, List.getElem?_cons_succ]
              exact ih i' k' (fun h => hk (by rw [h]))

/-- Soundness of the best-fit search alone: the partition it selects is
free and large enough. -/
theorem findBestFit_free (mem : List Partition) (js : Int) (i : Nat)
    (h : findBestFit mem js = some i) :
    ∃ p : Partition, mem[i]? = some p ∧ p.isFree = true ∧ js ≤ p.size := by
  rcases findBestFit_some_spec mem js i h with ⟨p, hget, hpf, hps, _, _⟩
  exact ⟨p, hget, hpf, hps⟩

/-- A partition just filled by `placeAt` is never selected again by a
later best-fit search: it is no longer free. -/
theorem findBestFit_placeAt_ne (mem : List Partition) (i : Nat) (j : Job) (js : Int) :
    findBestFit (placeAt j mem i) js ≠ some i := by
  intro h
  rcases findBestFit_free _ _ _ h with ⟨p, hget, hfree, _⟩
  cases hmem : mem[i]? with
  | some q =>
      rw [placeAt_getElem_self j mem i q hmem] at hget
      injection hget with hget
      have : p.isFree = false := by rw [← hget]
      rw [this] at hfree
      exact Bool.noConfusion hfree
  | none =>
      have hlen : mem.length ≤ i := List.getElem?_eq_none_iff.mp hmem
      have hlen' : (placeAt j mem i).length ≤ i := by rw [placeAt_length]; exact hlen
      rw [List.getElem?_eq_none_iff.mpr hlen'] at hget
      exact Option.noConfusion hget

/-- Running the sweep fold from a non-empty `remaining` accumulator just
prefixes that accumulator to the final remaining list. -/
theorem drainRetry_acc :
    ∀ (wq : List Job) (mem : List Partition) (rem : List Job),
      wq.foldl sweepStep (mem, rem) = ((drainRetry mem wq).1, rem ++ (drainRetry mem wq).2) := by
  intro wq
  induction wq with
  | nil => intro mem rem; simp [drainRetry]
  | cons j wq ih =>
      intro mem rem
      rw [List.foldl_cons]
      unfold drainRetry
      rw [List.foldl_cons]
      cases h : findBestFit mem j.jobSize with
      | some i =>
          have h1 : sweepStep (mem, rem) j = (placeAt j mem i, rem) := by
            simp [sweepStep, h]
          have h2 : sweepStep (mem, []) j = (placeAt j mem i, ([] : List Job)) := by
            simp [sweepStep, h]
          rw [h1, h2, ih (placeAt j mem i) rem, ih (placeAt j mem i) []]
          simp [drainRetry]
      | none =>
          have h1 : sweepStep (mem, rem) j = (mem, rem ++ [j]) := by
            simp [sweepStep, h]
          have h2 : sweepStep (mem, []) j = (mem, [j]) := by
            simp [sweepStep, h]
          rw [h1, h2, ih mem (rem ++ [j]), ih mem [j]]
          simp [drainRetry]

/-- The sweep does nothing on an empty queue. -/
theorem drainRetry_nil (mem : List Partition) : drainRetry mem [] = (mem, []) := rfl

/-- Sweep step, success case: a job whose best-fit search succeeds is
placed immediately and the sweep continues on the updated memory; the job
does not reappear in the remaining queue. -/
theorem drainRetry_cons_some (mem : List Partition) (j : Job) (wq : List Job) (i : Nat)
    (h : findBestFit mem j.jobSize = some i) :
    drainRetry mem (j :: wq) = drainRetry (placeAt j mem i) wq := by
  unfold drainRetry
  rw [List.foldl_cons]
  have h1 : sweepStep (mem, []) j = (placeAt j mem i, ([] : List Job)) := by
    simp [sweepStep, h]
  rw [h1]

/-- Sweep step, failure case: a job whose best-fit search fails is kept
(at the front of the surviving queue, in original order) and the sweep
continues on the unchanged memory: a failure does not block later jobs. -/
theorem drainRetry_cons_none (mem : List Partition) (j : Job) (wq : List Job)
    (h : findBestFit mem j.jobSize = none) :
    drainRetry mem (j :: wq) = ((drainRetry mem wq).1, j :: (drainRetry mem wq).2) := by
  unfold drainRetry
  rw [List.foldl_cons]
  have h1 : sweepStep (mem, []) j = (mem, [j]) := by
    simp [sweepStep, h]
  rw [h1, drainRetry_acc wq mem [j]]
  rfl

/-- The jobs surviving a sweep are a sublist of the original queue: each
survivor appeared once and the original relative order is kept. -/
theorem drainRetry_sublist :
    ∀ (wq : List Job) (mem : List Partition), ((drainRetry mem wq).2).Sublist wq := by
  intro wq
  induction wq with
  | nil => intro mem; simp [drainRetry]
  | cons j wq ih =>
      intro mem
      cases h : findBestFit mem j.jobSize with
      | some i =>
          rw [drainRetry_cons_some mem j wq i h]
          exact (ih (placeAt j mem i)).cons j
      | none =>
          rw [drainRetry_cons_none mem j wq h]
          exact (ih mem).cons₂ j

/-- The deallocation scan fails exactly when no used partition holds the
requested job number. -/
theorem releaseScan_none_iff (n : Int) :
    ∀ mem : List Partition,
      releaseScan n mem = none ↔ ∀ p ∈ mem, ¬(p.isFree = false ∧ p.jobNumber = n) := by
  intro mem
  induction mem with
  | nil => simp [releaseScan]
  | cons q rest ih =>
      by_cases hc : q.isFree = false ∧ q.jobNumber = n
      · constructor
        · intro h
          simp only [releaseScan, if_pos hc] at h
          exact Option.noConfusion h
        · intro hall
          exact absurd hc (hall q (List.mem_cons_self q rest))
      · cases hr : releaseScan n rest with
        | none =>
            constructor
            · intro _ p hp
              rcases List.mem_cons.mp hp with hpq | hpr
              · subst hpq; exact hc
              · exact (ih.mp hr) p hpr
            · intro _
              simp only [releaseScan, if_neg hc, hr]
        | some v =>
            obtain ⟨rest', job'⟩ := v
            constructor
            · intro h
              simp only [releaseScan, if_neg hc, hr] at h
              exact Option.noConfusion h
            · intro hall
              have hnone : releaseScan n rest = none :=
                ih.mpr (fun p hp => hall p (List.mem_cons_of_mem q hp))
              rw [hr] at hnone
              exact Option.noConfusion hnone

/-- Anatomy of a successful deallocation scan: some used partition holds
the number; the scan frees it in place and returns its former occupant. -/
theorem releaseScan_found (n : Int) :
    ∀ (mem mem' : List Partition) (job : Job),
      releaseScan n mem = some (mem', job) →
      ∃ (i : Nat) (p : Partition), mem[i]? = some p ∧ p.isFree = false ∧ p.jobNumber = n ∧
        job = { jobNumber := p.jobNumber, jobSize := p.jobSize } ∧
        mem' = mem.set i (freePartition p) := by
  intro mem
  induction mem with
  | nil => intro mem' job h; simp [releaseScan] at h
  | cons q rest ih =>
      intro mem' job h
      by_cases hc : q.isFree = false ∧ q.jobNumber = n
      · simp only [releaseScan, if_pos hc] at h
        injection h with h
        have h1 : freePartition q :: rest = mem' := congrArg Prod.fst h
        have h2 : ({ jobNumber := q.jobNumber, jobSize := q.jobSize } : Job) = job :=
          congrArg Prod.snd h
        exact ⟨0, q, List.getElem?_cons_zero, hc.1, hc.2, h2.symm, by rw [← h1]; rfl⟩
      · cases hr : releaseScan n rest with
        | none =>
            simp only [releaseScan, if_neg hc, hr] at h
            exact Option.noConfusion h
        | some v =>
            obtain ⟨rest', job'⟩ := v
            simp only [releaseScan, if_neg hc, hr] at h
            injection h with h
            have h1 : q :: rest' = mem' := congrArg Prod.fst h
            have h2 : job' = job := congrArg Prod.snd h
            rcases ih rest' job' hr with ⟨i, p, hget, hf, hn, hjob, hmem⟩
            refine ⟨i + 1, p, ?_, hf, hn, ?_, ?_⟩
            · rw [List.getElem?_cons_succ]; exact hget
            · rw [← h2]; exact hjob
            · rw [← h1, hmem]; rfl

/-- When exactly one used partition holds the number, the scan frees
precisely that partition. -/
theorem releaseScan_of_holder (n : Int) :
    ∀ (mem : List Partition) (i : Nat) (p : Partition),
      mem[i]? = some p → p.isFree = false → p.jobNumber = n →
      (∀ (k : Nat) (q : Partition), mem[k]? = some q → q.isFree = false → q.jobNumber = n → k = i) →
      releaseScan n mem = some (mem.set i (freePartition p),
        { jobNumber := p.jobNumber, jobSize := p.jobSize }) := by
  intro mem
  induction mem with
  | nil => intro i p h; simp at h
  | cons q rest ih =>
      intro i p hget hf hn huniq
      cases i with
      | zero =>
          rw [List.getElem?_cons_zero] at hget
          injection hget with hget
          subst hget
          simp only [releaseScan,
            if_pos (show q.isFree = false ∧ q.jobNumber = n from ⟨hf, hn⟩)]
          rfl
      | succ i' =>
          have hcq : ¬(q.isFree = false ∧ q.jobNumber = n) := by
            intro hc
            have h0 := huniq 0 q List.getElem?_cons_zero hc.1 hc.2
            omega
          rw [List.getElem?_cons_succ] at hget
          have hrec := ih i' p hget hf hn (fun k q' hk hf' hn' => by
            have hk1 := huniq (k + 1) q' (by rw [List.getElem?_cons_succ]; exact hk) hf' hn'
            omega)
          simp only [releaseScan, if_neg hcq, hrec]
          rfl

/-- The size-prompt loop only ever accepts a positive size. -/
theorem readValidSize_pos :
    ∀ (inputs : List Int) (x : Int) (rest : List Int),
      readValidSize inputs = some (x, rest) → 0 < x := by
  intro inputs
  induction inputs with
  | nil => intro x rest h; simp [readValidSize] at h
  | cons a as ih =>
      intro x rest h
      by_cases ha : a ≤ 0
      · simp only [readValidSize, if_pos ha] at h
        exact ih x rest h
      · simp only [readValidSize, if_neg ha] at h
        injection h with h
        have h1 : a = x := congrArg Prod.fst h
        omega

/-- A non-positive entered size is skipped: the setup loop re-prompts and
creates no partition from it. -/
theorem createPool_skips_invalid (k i : Nat) (x : Int) (rest : List Int) (hx : x ≤ 0) :
    createPool (k + 1) i (x :: rest) = createPool (k + 1) i rest := by
  simp only [createPool, readValidSize, if_pos hx]

/-- Every pool the setup loop builds: exactly `k` partitions, all free
with cleared occupant fields and zero fragment, positive sizes, and ids
assigned consecutively from `i + 1`. -/
theorem createPool_spec :
    ∀ (k i : Nat) (inputs : List Int) (pool : List Partition),
      createPool k i inputs = some pool →
      pool.length = k ∧
      (∀ p ∈ pool, p.isFree = true ∧ p.jobNumber = -1 ∧ p.jobSize = 0 ∧
        p.internalFragment = 0 ∧ 0 < p.size) ∧
      (∀ (d : Nat) (p : Partition), pool[d]? = some p → p.id = (i : Int) + d + 1) := by
  intro k
  induction k with
  | zero =>
      intro i inputs pool h
      simp only [createPool] at h
      injection h with h
      subst h
      refine ⟨rfl, ?_, ?_⟩
      · intro p hp; simp at hp
      · intro d p hd; simp at hd
  | succ k ih =>
      intro i inputs pool h
      cases hv : readValidSize inputs with
      | none =>
          simp only [createPool, hv] at h
          exact Option.noConfusion h
      | some v =>
          obtain ⟨s, rest⟩ := v
          cases hp : createPool k (i + 1) rest with
          | none =>
              simp only [createPool, hv, hp] at h
              exact Option.noConfusion h
          | some ps =>
              simp only [createPool, hv, hp] at h
              injection h with h
              subst h
              rcases ih (i + 1) rest ps hp with ⟨hlen, hprops, hids⟩
              refine ⟨by simp [hlen], ?_, ?_⟩
              · intro p hp'
                rcases List.mem_cons.mp hp' with hph | hpt
                · subst hph
                  exact ⟨rfl, rfl, rfl, rfl, readValidSize_pos inputs s rest hv⟩
                · exact hprops p hpt
              · intro d p hd
                cases d with
                | zero =>
                    rw [List.getElem?_cons_zero] at hd
                    injection hd with hd
                    subst hd
                    simp
                | succ d' =>
                    rw [List.getElem?_cons_succ] at hd
                    have := hids d' p hd
                    rw [this]
                    push_cast
                    ring

/-- Occupant numbers of a cons: a free head contributes nothing, a used
head contributes its occupant's number. -/
theorem occupantNumbers_cons (q : Partition) (l : List Partition) :
    occupantNumbers (q :: l) =
      if q.isFree = true then occupantNumbers l else q.jobNumber :: occupantNumbers l := by
  cases hqf : q.isFree <;> simp [occupantNumbers, List.filter_cons, hqf]

/-- Placing a job into a free partition adds exactly its number to the
occupant numbers (up to permutation). -/
theorem occupantNumbers_placeAt (j : Job) :
    ∀ (mem : List Partition) (i : Nat) (p : Partition),
      mem[i]? = some p → p.isFree = true →
      List.Perm (occupantNumbers (placeAt j mem i)) (j.jobNumber :: occupantNumbers mem) := by
  intro mem
  induction mem with
  | nil => intro i p h; simp at h
  | cons q rest ih =>
      intro i p hget hfree
      cases i with
      | zero =>
          rw [List.getElem?_cons_zero] at hget
          injection hget with hget
          subst hget
          simp [occupantNumbers, placeAt, List.filter_cons, hfree]
      | succ k =>
          rw [List.getElem?_cons_succ] at hget
          have hperm := ih k p hget hfree
          show List.Perm (occupantNumbers (q :: placeAt j rest k)) _
          rw [occupantNumbers_cons, occupantNumbers_cons]
          cases hqf : q.isFree with
          | true => simpa [hqf] using hperm
          | false =>
              simp only [hqf, Bool.false_eq_true, if_false]
              exact (hperm.cons q.jobNumber).trans (List.Perm.swap j.jobNumber q.jobNumber _)

/-- Freeing an occupied partition removes exactly its occupant's number
from the occupant numbers (up to permutation). -/
theorem occupantNumbers_set_free :
    ∀ (mem : List Partition) (i : Nat) (p : Partition),
      mem[i]? = some p → p.isFree = false →
      List.Perm (occupantNumbers mem)
        (p.jobNumber :: occupantNumbers (mem.set i (freePartition p))) := by
  intro mem
  induction mem with
  | nil => intro i p h; simp at h
  | cons q rest ih =>
      intro i p hget hocc
      cases i with
      | zero =>
          rw [List.getElem?_cons_zero] at hget
          injection hget with hget
          subst hget
          simp [occupantNumbers, List.filter_cons, hocc, freePartition]
      | succ k =>
          rw [List.getElem?_cons_succ] at hget
          have hperm := ih k p hget hocc
          show List.Perm _ (p.jobNumber :: occupantNumbers (q :: rest.set k (freePartition p)))
          rw [occupantNumbers_cons, occupantNumbers_cons]
          cases hqf : q.isFree with
          | true => simpa [hqf] using hperm
          | false =>
              simp only [hqf, Bool.false_eq_true, if_false]
              exact (hperm.cons q.jobNumber).trans (List.Perm.swap p.jobNumber q.jobNumber _)

/-- Queue numbers of a cons. -/
theorem queueNumbers_cons (j : Job) (l : List Job) :
    queueNumbers (j :: l) = j.jobNumber :: queueNumbers l := rfl

/-- Every partition of `placeAt j mem i` is either an old partition of
`mem` or the one just filled. -/
theorem mem_placeAt (j : Job) :
    ∀ (mem : List Partition) (i : Nat) (q : Partition), q ∈ placeAt j mem i →
      q ∈ mem ∨ ∃ p, mem[i]? = some p ∧
        q = { p with isFree := false, jobNumber := j.jobNumber, jobSize := j.jobSize,
                     internalFragment := p.size - j.jobSize } := by
  intro mem
  induction mem with
  | nil => intro i q hq; cases i <;> simp [placeAt] at hq
  | cons p0 rest ih =>
      intro i q hq
      cases i with
      | zero =>
          rcases List.mem_cons.mp hq with hh | ht
          · exact Or.inr ⟨p0, List.getElem?_cons_zero, hh⟩
          · exact Or.inl (List.mem_cons_of_mem p0 ht)
      | succ k =>
          rcases List.mem_cons.mp hq with hh | ht
          · exact Or.inl (hh ▸ List.mem_cons_self p0 rest)
          · rcases ih k q ht with hold | ⟨p, hget, heq⟩
            · exact Or.inl (List.mem_cons_of_mem p0 hold)
            · exact Or.inr ⟨p, by rw [List.getElem?_cons_succ]; exact hget, heq⟩

/-- Placing a job whose size fits the target partition preserves the
fragment invariant: the new fragment is `size - jobSize ≥ 0`. -/
theorem FragInv_placeAt (j : Job) (mem : List Partition) (i : Nat) (p : Partition)
    (hget : mem[i]? = some p) (hsz : j.jobSize ≤ p.size) (hinv : FragInv mem) :
    FragInv (placeAt j mem i) := by
  intro q hq
  rcases mem_placeAt j mem i q hq with hold | ⟨p', hget', hq'⟩
  · exact hinv q hold
  · have hpp : p' = p := by
      rw [hget'] at hget
      injection hget
    subst hpp
    subst hq'
    refine ⟨by simpa using sub_nonneg.mpr hsz, ?_⟩
    intro hfree
    exact absurd hfree (by simp)

/-- Freeing a partition preserves the fragment invariant: the freed
partition has fragment `0`. -/
theorem FragInv_set_free (mem : List Partition) (i : Nat) (p : Partition)
    (hinv : FragInv mem) : FragInv (mem.set i (freePartition p)) := by
  intro q hq
  rcases List.mem_or_eq_of_mem_set hq with hold | heq
  · exact hinv q hold
  · subst heq
    exact ⟨le_refl 0, fun _ => rfl⟩

/-- The retry sweep preserves the fragment invariant: every placement it
performs goes through the best-fit search, so it targets a free partition
large enough for the job. -/
theorem FragInv_drainRetry :
    ∀ (wq : List Job) (mem : List Partition), FragInv mem → FragInv (drainRetry mem wq).1 := by
  intro wq
  induction wq with
  | nil => intro mem h; simpa [drainRetry] using h
  | cons j wq ih =>
      intro mem h
      cases hfb : findBestFit mem j.jobSize with
      | some i =>
          rw [drainRetry_cons_some mem j wq i hfb]
          rcases findBestFit_free mem j.jobSize i hfb with ⟨p, hget, _, hsz⟩
          exact ih _ (FragInv_placeAt j mem i p hget hsz h)
      | none =>
          rw [drainRetry_cons_none mem j wq hfb]
          exact ih mem h

/-- The retry sweep conserves job numbers: occupants plus surviving queue
after a sweep are a permutation of occupants plus queue before it (jobs
only move from the queue into free partitions). -/
theorem occupantNumbers_drainRetry :
    ∀ (wq : List Job) (mem : List Partition),
      List.Perm
        (occupantNumbers (drainRetry mem wq).1 ++ queueNumbers (drainRetry mem wq).2)
        (occupantNumbers mem ++ queueNumbers wq) := by
  intro wq
  induction wq with
  | nil => intro mem; simp [drainRetry]
  | cons j wq ih =>
      intro mem
      cases hfb : findBestFit mem j.jobSize with
      | some i =>
          rw [drainRetry_cons_some mem j wq i hfb]
          rcases findBestFit_free mem j.jobSize i hfb with ⟨p, hget, hfree, _⟩
          have h1 := ih (placeAt j mem i)
          have h2 := occupantNumbers_placeAt j mem i p hget hfree
          refine h1.trans ?_
          refine (h2.append_right (queueNumbers wq)).trans ?_
          rw [queueNumbers_cons]
          exact (List.perm_middle).symm
      | none =>
          rw [drainRetry_cons_none mem j wq hfb]
          have h1 := ih mem
          rw [queueNumbers_cons, queueNumbers_cons]
          refine (List.perm_middle).trans ?_
          refine (h1.cons j.jobNumber).trans ?_
          exact (List.perm_middle).symm

/-- `submit` when no partition fits: the job goes to the back of the
waiting queue and only the counter changes besides. -/
theorem submitOp_none (s : SimState) (size : Int)
    (h : findBestFit s.memory size = none) :
    submitOp s size =
      { s with waitingQueue := s.waitingQueue ++ [{ jobNumber := s.jobCounter, jobSize := size }],
               jobCounter := s.jobCounter + 1 } := by
  simp [submitOp, allocateJob, h]

/-- `submit` when the best-fit search succeeds: the job is placed at the
returned index and the counter advances. -/
theorem submitOp_some (s : SimState) (size : Int) (i : Nat)
    (h : findBestFit s.memory size = some i) :
    submitOp s size =
      { s with memory := placeAt { jobNumber := s.jobCounter, jobSize := size } s.memory i,
               jobCounter := s.jobCounter + 1 } := by
  simp [submitOp, allocateJob, h]

/-- `submit` preserves the engine invariant: the assigned number is fresh
because every live number is below the counter. -/
theorem stateInv_submitOp (s : SimState) (size : Int) (h : StateInv s) :
    StateInv (submitOp s size) := by
  obtain ⟨hfrag, hnodup, hbound⟩ := h
  have hfresh : s.jobCounter ∉ occupantNumbers s.memory ++ queueNumbers s.waitingQueue := by
    intro hx
    exact absurd (hbound _ hx) (lt_irrefl _)
  cases hfb : findBestFit s.memory size with
  | none =>
      rw [submitOp_none s size hfb]
      refine ⟨hfrag, ?_, ?_⟩
      · show (occupantNumbers s.memory ++
          queueNumbers (s.waitingQueue ++ [{ jobNumber := s.jobCounter, jobSize := size }])).Nodup
        simp only [queueNumbers, List.map_append, List.map_cons, List.map_nil]
        rw [← List.append_assoc]
        refine List.Nodup.append hnodup (List.nodup_singleton _) ?_
        intro x hxX hxc
        simp only [List.mem_singleton] at hxc
        subst hxc
        exact hfresh hxX
      · intro x hx
        simp only [queueNumbers, List.map_append, List.map_cons, List.map_nil] at hx
        rw [← List.append_assoc] at hx
        rcases List.mem_append.mp hx with hx | hx
        · exact lt_trans (hbound x hx) (lt_add_one _)
        · simp only [List.mem_singleton] at hx
          subst hx
          exact lt_add_one _
  | some i =>
      rw [submitOp_some s size i hfb]
      rcases findBestFit_free _ _ _ hfb with ⟨p, hget, hfree, hsz⟩
      have hperm :=
        occupantNumbers_placeAt { jobNumber := s.jobCounter, jobSize := size } s.memory i p
          hget hfree
      have hp2 :
          List.Perm
            (occupantNumbers
              (placeAt { jobNumber := s.jobCounter, jobSize := size } s.memory i) ++
                queueNumbers s.waitingQueue)
            (s.jobCounter :: (occupantNumbers s.memory ++ queueNumbers s.waitingQueue)) :=
        hperm.append_right _
      refine ⟨FragInv_placeAt _ _ _ p hget hsz hfrag, ?_, ?_⟩
      · exact (hp2.nodup_iff).mpr (List.nodup_cons.mpr ⟨hfresh, hnodup⟩)
      · intro x hx
        rcases List.mem_cons.mp (hp2.subset hx) with hx1 | hx1
        · subst hx1
          exact lt_add_one _
        · exact lt_trans (hbound x hx1) (lt_add_one _)

/-- `release` preserves the engine invariant: a found job's number leaves
the occupants, and the subsequent sweep only moves numbers from the queue
into partitions. -/
theorem stateInv_releaseOp (s : SimState) (n : Int) (h : StateInv s) :
    StateInv (releaseOp s n) := by
  obtain ⟨hfrag, hnodup, hbound⟩ := h
  unfold releaseOp deallocateJob
  cases hr : releaseScan n s.memory with
  | none =>
      simp only []
      exact ⟨hfrag, hnodup, hbound⟩
  | some v =>
      obtain ⟨mem', job⟩ := v
      simp only []
      rcases releaseScan_found n s.memory mem' job hr with ⟨i, p, hget, hocc, hnum, hjob, hmem'⟩
      subst hmem'
      simp only [tryAllocateWaiting]
      have hperm := occupantNumbers_set_free s.memory i p hget hocc
      have h1 :=
        occupantNumbers_drainRetry s.waitingQueue (s.memory.set i (freePartition p))
      have h2 :
          List.Perm (occupantNumbers s.memory ++ queueNumbers s.waitingQueue)
            (p.jobNumber ::
              (occupantNumbers (s.memory.set i (freePartition p)) ++
                queueNumbers s.waitingQueue)) :=
        hperm.append_right _
      have hnodup' :
          (occupantNumbers (s.memory.set i (freePartition p)) ++
            queueNumbers s.waitingQueue).Nodup :=
        (List.nodup_cons.mp ((h2.nodup_iff).mp hnodup)).2
      refine ⟨?_, ?_, ?_⟩
      · exact FragInv_drainRetry _ _ (FragInv_set_free _ _ _ hfrag)
      · exact (h1.nodup_iff).mpr hnodup'
      · intro x hx
        have hx1 := h1.subset hx
        have hx2 : x ∈ occupantNumbers s.memory ++ queueNumbers s.waitingQueue :=
          h2.symm.subset (List.mem_cons_of_mem _ hx1)
        exact hbound x hx2

/-- A freshly set-up state satisfies the engine invariant. -/
theorem stateInv_initState (s : SimState) (h : InitState s) : StateInv s := by
  obtain ⟨n, inputs, pool, hpool, hs⟩ := h
  subst hs
  rcases createPool_spec n.toNat 0 inputs pool hpool with ⟨-, hprops, -⟩
  have hocc : occupantNumbers pool = [] := by
    unfold occupantNumbers
    rw [List.filter_eq_nil_iff.mpr]
    · rfl
    · intro p hp
      rcases hprops p hp with ⟨hf, -, -, -, -⟩
      simp [hf]
  refine ⟨?_, ?_, ?_⟩
  · intro p hp
    rcases hprops p hp with ⟨-, -, -, hfr, -⟩
    exact ⟨hfr.ge, fun _ => hfr⟩
  · simp [hocc, queueNumbers]
  · intro x hx
    simp [hocc, queueNumbers] at hx

/-- Every accepted menu command preserves the engine invariant. -/
theorem stateInv_step (s t : SimState) (hstep : Step s t) (h : StateInv s) : StateInv t := by
  cases hstep with
  | submit size hsz => exact stateInv_submitOp s size h
  | release n => exact stateInv_releaseOp s n h
  | report => exact h

/-- Every reachable state satisfies the engine invariant. -/
theorem stateInv_reachable (s : SimState) (h : Reachable s) : StateInv s := by
  induction h with
  | init s hi => exact stateInv_initState s hi
  | step s t hs hst ih => exact stateInv_step s t hst ih

/-- `release` never touches the job counter. -/
theorem releaseOp_jobCounter (s : SimState) (n : Int) :
    (releaseOp s n).jobCounter = s.jobCounter := by
  unfold releaseOp deallocateJob
  cases hr : releaseScan n s.memory with
  | none => simp only [hr]
  | some v =>
      obtain ⟨mem', job⟩ := v
      simp only [hr]
      rfl

/-- `submit` advances the job counter by exactly one. -/
theorem submitOp_jobCounter (s : SimState) (size : Int) :
    (submitOp s size).jobCounter = s.jobCounter + 1 := rfl

/-- The numbers handed out while running a command list are the
consecutive integers starting at the current counter, one per submit. -/
theorem assignedNumbers_eq :
    ∀ (ops : List Op) (s : SimState),
      assignedNumbers s ops = intSeq s.jobCounter (countSubmits ops) := by
  intro ops
  induction ops with
  | nil => intro s; rfl
  | cons op ops ih =>
      intro s
      cases op with
      | submit size =>
          show s.jobCounter :: assignedNumbers (applyOp s (.submit size)) ops =
            intSeq s.jobCounter (countSubmits ops + 1)
          rw [ih]
          have hc : (applyOp s (.submit size)).jobCounter = s.jobCounter + 1 :=
            submitOp_jobCounter s size
          rw [hc]
          rfl
      | release n =>
          show assignedNumbers (applyOp s (.release n)) ops =
            intSeq s.jobCounter (countSubmits ops)
          rw [ih]
          have hc : (applyOp s (.release n)).jobCounter = s.jobCounter :=
            releaseOp_jobCounter s n
          rw [hc]
      | report =>
          show assignedNumbers s ops = intSeq s.jobCounter (countSubmits ops)
          rw [ih]

/-- Every element of `intSeq a n` lies in `[a, a + n)`. -/
theorem intSeq_mem :
    ∀ (n : Nat) (a x : Int), x ∈ intSeq a n → a ≤ x ∧ x < a + n := by
  intro n
  induction n with
  | zero => intro a x hx; simp [intSeq] at hx
  | succ n ih =>
      intro a x hx
      rcases List.mem_cons.mp hx with hx | hx
      · refine ⟨hx.ge, ?_⟩
        push_cast
        omega
      · rcases ih (a + 1) x hx with ⟨h1, h2⟩
        constructor
        · omega
        · push_cast at h2 ⊢; omega

/-- `intSeq` is strictly increasing. -/
theorem intSeq_pairwise_lt : ∀ (n : Nat) (a : Int), (intSeq a n).Pairwise (· < ·) := by
  intro n
  induction n with
  | zero => intro a; simp [intSeq]
  | succ n ih =>
      intro a
      refine List.pairwise_cons.mpr ⟨?_, ih (a + 1)⟩
      intro x hx
      have := (intSeq_mem n (a + 1) x hx).1
      omega

/-- Folding the occupied-percentage accumulator equals summing the
per-partition percentages (free contributing zero). -/
theorem utilization_foldl_eq :
    ∀ (l : List Partition) (acc : ℚ),
      l.foldl
        (fun acc p => if p.isFree then acc else acc + ((p.jobSize : ℚ) / (p.size : ℚ)) * 100)
        acc
      = acc +
        (l.map (fun p => if p.isFree then (0 : ℚ)
          else ((p.jobSize : ℚ) / (p.size : ℚ)) * 100)).sum := by
  intro l
  induction l with
  | nil => intro acc; simp
  | cons p rest ih =>
      intro acc
      cases hp : p.isFree
      · simp [hp, ih]
        ring
      · simp [hp, ih]

/-- In a pool whose ids are `1..N` in order (as `main` creates them), the
partition found at an index carries that index plus one as its id. -/
theorem id_of_map_range (mem : List Partition)
    (hid : mem.map (fun p => p.id) = (List.range mem.length).map (fun (k : Nat) => (k : Int) + 1))
    (i : Nat) (p : Partition) (hget : mem[i]? = some p) : p.id = (i : Int) + 1 := by
  have hlen : i < mem.length := by
    by_contra hcon
    rw [List.getElem?_eq_none_iff.mpr (Nat.le_of_not_lt hcon)] at hget
    exact Option.noConfusion hget
  have h1 : (mem.map (fun p => p.id))[i]? = some p.id := by
    rw [List.getElem?_map, hget]
    rfl
  rw [hid, List.getElem?_map, List.getElem?_range hlen] at h1
  simp at h1
  omega

/-- C1: for every request size `s > 0` and pool state, the best-fit scan
of `allocateJob` considers exactly the free partitions with capacity
`≥ s`; if none exists it selects no partition and the job is enqueued,
otherwise it places the job into the candidate minimising `capacity - s`,
breaking ties by lowest index and hence (ids being `1..N` in order) by
lowest partition id, since the scan replaces the current best only on
strict improvement. -/
theorem spec_C1_best_fit_selection (s : SimState) (job : Job)
    (hpos : 0 < job.jobSize)
    (hrange : ∀ p ∈ s.memory, p.size ≤ INT_MAX)
    (hid : s.memory.map (fun p => p.id) =
      (List.range s.memory.length).map (fun (k : Nat) => (k : Int) + 1)) :
    (findBestFit s.memory job.jobSize = none ↔
      ∀ p ∈ s.memory, ¬(p.isFree = true ∧ job.jobSize ≤ p.size)) ∧
    (findBestFit s.memory job.jobSize = none →
      allocateJob s job = { s with waitingQueue := s.waitingQueue ++ [job] }) ∧
    (∀ i : Nat, findBestFit s.memory job.jobSize = some i →
      allocateJob s job = { s with memory := placeAt job s.memory i } ∧
      ∃ p : Partition, s.memory[i]? = some p ∧ p.isFree = true ∧ job.jobSize ≤ p.size ∧
        (∀ (e : Nat) (q : Partition), s.memory[e]? = some q →
          q.isFree = true → job.jobSize ≤ q.size →
            p.size - job.jobSize ≤ q.size - job.jobSize ∧
            (q.size - job.jobSize = p.size - job.jobSize → i ≤ e ∧ p.id ≤ q.id))) := by
  refine ⟨findBestFit_none_iff _ _ hpos hrange, ?_, ?_⟩
  · intro h
    simp [allocateJob, h]
  · intro i hi
    refine ⟨by simp [allocateJob, hi], ?_⟩
    rcases findBestFit_some_spec _ _ _ hi with ⟨p, hget, hf, hsz, hmin, htie⟩
    refine ⟨p, hget, hf, hsz, ?_⟩
    intro e q hq hqf hqs
    refine ⟨hmin e q hq hqf hqs, ?_⟩
    intro hEq
    have hie := htie e q hq hqf hqs hEq
    have hpid := id_of_map_range s.memory hid i p hget
    have hqid := id_of_map_range s.memory hid e q hq
    refine ⟨hie, ?_⟩
    rw [hpid, hqid]
    omega

/-- Witness for C1 on the spec's own example `{10, 4, 8}` with a job of
size 4: the hypotheses hold and the candidate characterisation follows. -/
theorem spec_C1_witness :
    findBestFit demoState.memory 4 = some 1 ∧
    (findBestFit demoState.memory 4 = none ↔
      ∀ p ∈ demoState.memory, ¬(p.isFree = true ∧ (4 : Int) ≤ p.size)) :=
  ⟨by decide,
    (spec_C1_best_fit_selection demoState { jobNumber := 1, jobSize := 4 }
      (by decide) (by decide) (by decide)).1⟩

/-- C2: one retry sweep visits the queued jobs exactly once each in
original order (the fold equations for nil/placed/failed), places each
job whose best-fit search succeeds at its visit time, leaves the queue
equal to exactly the failed jobs in their original relative order (the
survivors form a sublist, and the cons equations show a job survives
exactly when its search failed), threads the memory so a partition filled
earlier in the sweep is no longer selectable later, and lets a failing
job not block later jobs (the failure equation recurses on the rest). -/
theorem spec_C2_retry_sweep (s : SimState) (mem : List Partition) (j : Job)
    (wq : List Job) (i : Nat) (js : Int) :
    (tryAllocateWaiting s =
      { s with memory := (drainRetry s.memory s.waitingQueue).1,
               waitingQueue := (drainRetry s.memory s.waitingQueue).2 }) ∧
    drainRetry mem [] = (mem, []) ∧
    (findBestFit mem j.jobSize = some i →
      drainRetry mem (j :: wq) = drainRetry (placeAt j mem i) wq) ∧
    (findBestFit mem j.jobSize = none →
      drainRetry mem (j :: wq) = ((drainRetry mem wq).1, j :: (drainRetry mem wq).2)) ∧
    ((drainRetry mem wq).2).Sublist wq ∧
    findBestFit (placeAt j mem i) js ≠ some i := by
  refine ⟨rfl, rfl, ?_, ?_, drainRetry_sublist wq mem, findBestFit_placeAt_ne mem i j js⟩
  · exact drainRetry_cons_some mem j wq i
  · exact drainRetry_cons_none mem j wq

/-- Witness for C2 on the §8 reclamation fixture: waiting job 2 (size 8)
is placed into the free capacity-10 partition during the sweep. -/
theorem spec_C2_witness :
    drainRetry demoBusy.memory ({ jobNumber := 2, jobSize := 8 } :: []) =
      drainRetry (placeAt { jobNumber := 2, jobSize := 8 } demoBusy.memory 1) [] :=
  (spec_C2_retry_sweep demoState demoBusy.memory { jobNumber := 2, jobSize := 8 }
    [] 1 0).2.2.1 (by decide)

/-- C3: releasing a job number held by exactly one occupied partition
frees that partition (occupant cleared, fragment reset to zero by
`freePartition`), appends the released job to the deallocation history,
and then runs exactly one retry sweep over the whole waiting queue within
the same operation. -/
theorem spec_C3_release_found (s : SimState) (n : Int) (i : Nat)
    (hlen : i < s.memory.length)
    (hocc : (s.memory[i]).isFree = false) (hnum : (s.memory[i]).jobNumber = n)
    (huniq : ∀ k, (hk : k < s.memory.length) →
      (s.memory[k]).isFree = false → (s.memory[k]).jobNumber = n → k = i) :
    deallocateJob s n =
      (tryAllocateWaiting
        { s with memory := s.memory.set i (freePartition (s.memory[i])),
                 deallocatedJobs := s.deallocatedJobs ++
                   [{ jobNumber := (s.memory[i]).jobNumber,
                      jobSize := (s.memory[i]).jobSize }] },
       true) := by
  have hget : s.memory[i]? = some s.memory[i] := List.getElem?_eq_getElem hlen
  have huniq' : ∀ (k : Nat) (q : Partition),
      s.memory[k]? = some q → q.isFree = false → q.jobNumber = n → k = i := by
    intro k q hk hf hn
    obtain ⟨hklen, hkeq⟩ := List.getElem?_eq_some_iff.mp hk
    subst hkeq
    exact huniq k hklen hf hn
  unfold deallocateJob
  rw [releaseScan_of_holder n s.memory i s.memory[i] hget hocc hnum huniq']

/-- Witness for C3 on the §8 reclamation fixture: releasing job 1 frees
partition id 1, records job 1 in history, and triggers the sweep. -/
theorem spec_C3_witness :
    deallocateJob demoBusy 1 =
      (tryAllocateWaiting
        { demoBusy with
            memory := demoBusy.memory.set 0 (freePartition (demoBusy.memory[0])),
            deallocatedJobs := demoBusy.deallocatedJobs ++
              [{ jobNumber := (demoBusy.memory[0]).jobNumber,
                 jobSize := (demoBusy.memory[0]).jobSize }] },
       true) :=
  spec_C3_release_found demoBusy 1 0 (by decide) (by decide) (by decide)
    (by decide)

/-- C5: `deallocateJob` reports "Job not found." exactly when no used
partition holds the requested number, and in that case the whole state —
partitions, waiting queue and history — is returned unchanged, so no
retry sweep runs. -/
theorem spec_C5_release_not_found (s : SimState) (n : Int) :
    ((deallocateJob s n).2 = false ↔
      ∀ p ∈ s.memory, ¬(p.isFree = false ∧ p.jobNumber = n)) ∧
    ((deallocateJob s n).2 = false → deallocateJob s n = (s, false)) := by
  constructor
  · constructor
    · intro h
      cases hr : releaseScan n s.memory with
      | none => exact (releaseScan_none_iff n s.memory).mp hr
      | some v =>
          obtain ⟨mem', job⟩ := v
          unfold deallocateJob at h
          rw [hr] at h
          simp at h
    · intro hno
      have hr : releaseScan n s.memory = none := (releaseScan_none_iff n s.memory).mpr hno
      unfold deallocateJob
      rw [hr]
  · intro h
    cases hr : releaseScan n s.memory with
    | none =>
        unfold deallocateJob
        rw [hr]
    | some v =>
        obtain ⟨mem', job⟩ := v
        unfold deallocateJob at h
        rw [hr] at h
        simp at h

/-- Witness for C5: releasing the unknown job number 7 from the fresh
demo pool changes nothing and reports not-found. -/
theorem spec_C5_witness : deallocateJob demoState 7 = (demoState, false) :=
  (spec_C5_release_not_found demoState 7).2 (by decide)

/-- Counterexample to C4: `main` never validates the partition count, so
entering `n = 0` creates a pool with zero partitions without any error —
contradicting "pool creation fails if the sequence of sizes is empty; in
particular a pool with zero partitions is never created". -/
theorem spec_C4_counterexample :
    mkPool 0 [] = some [] ∧
    ¬(∀ (n : Int) (inputs : List Int) (pool : List Partition),
        mkPool n inputs = some pool → 0 < pool.length) := by
  refine ⟨rfl, ?_⟩
  intro h
  have h0 := h 0 [] [] rfl
  simp at h0

/-- C4 (amended): each entered partition size is validated — a
non-positive size is skipped with a re-prompt and creates no partition,
so every created partition has positive capacity (and ids 1..N in
order); but the partition count is not validated, and `n = 0` yields an
empty pool, so the empty-sequence half of the original claim fails. -/
theorem spec_C4_amended (n : Int) (inputs : List Int) (pool : List Partition)
    (h : mkPool n inputs = some pool) (k i : Nat) (x : Int) (rest : List Int)
    (hx : x ≤ 0) :
    (∀ p ∈ pool, 0 < p.size) ∧
    pool.length = n.toNat ∧
    (∀ (d : Nat) (p : Partition), pool[d]? = some p → p.id = (d : Int) + 1) ∧
    createPool (k + 1) i (x :: rest) = createPool (k + 1) i rest := by
  rcases createPool_spec n.toNat 0 inputs pool h with ⟨hlen, hprops, hids⟩
  refine ⟨fun p hp => (hprops p hp).2.2.2.2, hlen, ?_,
    createPool_skips_invalid k i x rest hx⟩
  intro d p hd
  have hpd := hids d p hd
  omega

/-- Witness for the amended C4: entering `-3` is skipped (the setup loop
re-prompts), and the pool built from count 2 and inputs `[-3, 5, 7]` has
exactly two partitions, the first of positive size 5. -/
theorem spec_C4_witness :
    ([{ id := 1, size := 5, isFree := true, jobNumber := -1, jobSize := 0,
        internalFragment := 0 },
      { id := 2, size := 7, isFree := true, jobNumber := -1, jobSize := 0,
        internalFragment := 0 }] : List Partition).length = (2 : Int).toNat ∧
    createPool 1 0 [-3, 5, 7] = createPool 1 0 [5, 7] ∧
    (0 : Int) <
      ({ id := 1, size := 5, isFree := true, jobNumber := -1, jobSize := 0,
         internalFragment := 0 } : Partition).size := by
  have h := spec_C4_amended 2 [-3, 5, 7]
    [{ id := 1, size := 5, isFree := true, jobNumber := -1, jobSize := 0,
       internalFragment := 0 },
     { id := 2, size := 7, isFree := true, jobNumber := -1, jobSize := 0,
       internalFragment := 0 }]
    (by decide) 0 0 (-3) [5, 7] (by decide)
  exact ⟨h.2.1, h.2.2.2, h.1 _ (by decide)⟩

/-- C6: in every reachable state each job number appears at most once
across partition occupants and the waiting queue: no number occupies two
partitions, sits twice in the queue, or is both placed and waiting. -/
theorem spec_C6_unique_occupancy (s : SimState) (h : Reachable s) :
    (occupantNumbers s.memory ++ queueNumbers s.waitingQueue).Nodup ∧
    (occupantNumbers s.memory).Nodup ∧
    (queueNumbers s.waitingQueue).Nodup ∧
    ∀ x ∈ occupantNumbers s.memory, x ∉ queueNumbers s.waitingQueue := by
  obtain ⟨-, hnodup, -⟩ := stateInv_reachable s h
  have hsplit := List.nodup_append.mp hnodup
  exact ⟨hnodup, hsplit.1, hsplit.2.1, fun x hx hx' => hsplit.2.2 hx hx'⟩

/-- Witness for C6 at the reachable state obtained by one submit of size
4 from the fresh demo pool. -/
theorem spec_C6_witness :
    (occupantNumbers (submitOp demoState 4).memory ++
      queueNumbers (submitOp demoState 4).waitingQueue).Nodup ∧
    (occupantNumbers (submitOp demoState 4).memory).Nodup ∧
    (queueNumbers (submitOp demoState 4).waitingQueue).Nodup ∧
    ∀ x ∈ occupantNumbers (submitOp demoState 4).memory,
      x ∉ queueNumbers (submitOp demoState 4).waitingQueue :=
  spec_C6_unique_occupancy (submitOp demoState 4)
    (Reachable.step demoState (submitOp demoState 4)
      (Reachable.init demoState ⟨3, [10, 4, 8], demoPool, by decide, rfl⟩)
      (Step.submit demoState 4 (by decide)))

/-- C7: in every reachable state every partition has a non-negative
internal fragment, and every free partition has fragment zero. -/
theorem spec_C7_fragment_invariant (s : SimState) (h : Reachable s) :
    ∀ p ∈ s.memory, 0 ≤ p.internalFragment ∧ (p.isFree = true → p.internalFragment = 0) :=
  (stateInv_reachable s h).1

/-- Witness for C7 at the reachable state obtained by submitting size 4
and then releasing job 1: the capacity-4 partition is free again with
zero fragment. -/
theorem spec_C7_witness :
    0 ≤ ({ id := 2, size := 4, isFree := true, jobNumber := -1, jobSize := 0,
           internalFragment := 0 } : Partition).internalFragment ∧
    ({ id := 2, size := 4, isFree := true, jobNumber := -1, jobSize := 0,
       internalFragment := 0 } : Partition).internalFragment = 0 := by
  have h := spec_C7_fragment_invariant (releaseOp (submitOp demoState 4) 1)
    (Reachable.step (submitOp demoState 4) (releaseOp (submitOp demoState 4) 1)
      (Reachable.step demoState (submitOp demoState 4)
        (Reachable.init demoState ⟨3, [10, 4, 8], demoPool, by decide, rfl⟩)
        (Step.submit demoState 4 (by decide)))
      (Step.release (submitOp demoState 4) 1))
    { id := 2, size := 4, isFree := true, jobNumber := -1, jobSize := 0,
      internalFragment := 0 } (by decide)
  exact ⟨h.1, h.2 (by decide)⟩

/-- C8: the reported memory utilization is the sum over occupied
partitions of `jobSize / capacity × 100` (free partitions contributing
0) divided by the total partition count — count-weighted, exactly as the
spec words it. -/
theorem spec_C8_utilization (mem : List Partition) :
    utilization mem = utilization_spec mem := by
  unfold utilization utilization_spec
  rw [utilization_foldl_eq]
  simp

/-- C9: across any command sequence started at counter 1, the numbers
assigned by submit are exactly `1, 2, …`, strictly increasing, never
reused, independent of placements, waits and releases. -/
theorem spec_C9_monotonic_numbers (s : SimState) (ops : List Op)
    (h : s.jobCounter = 1) :
    assignedNumbers s ops = intSeq 1 (countSubmits ops) ∧
    (assignedNumbers s ops).Pairwise (· < ·) ∧
    (assignedNumbers s ops).Nodup ∧
    ∀ x ∈ assignedNumbers s ops, 1 ≤ x := by
  have he : assignedNumbers s ops = intSeq 1 (countSubmits ops) := by
    rw [assignedNumbers_eq, h]
  have hpw : (assignedNumbers s ops).Pairwise (· < ·) := by
    rw [he]
    exact intSeq_pairwise_lt _ 1
  refine ⟨he, hpw, List.Pairwise.imp (fun hab => ne_of_lt hab) hpw, ?_⟩
  intro x hx
  rw [he] at hx
  exact (intSeq_mem _ 1 x hx).1

/-- Witness for C9: a run with two submits, a release and a report hands
out exactly the numbers 1 and 2. -/
theorem spec_C9_witness :
    assignedNumbers demoState [Op.submit 4, Op.release 1, Op.submit 9, Op.report] =
      intSeq 1 2 ∧
    (assignedNumbers demoState
      [Op.submit 4, Op.release 1, Op.submit 9, Op.report]).Pairwise (· < ·) ∧
    (assignedNumbers demoState
      [Op.submit 4, Op.release 1, Op.submit 9, Op.report]).Nodup ∧
    ∀ x ∈ assignedNumbers demoState [Op.submit 4, Op.release 1, Op.submit 9, Op.report],
      1 ≤ x :=
  spec_C9_monotonic_numbers demoState [Op.submit 4, Op.release 1, Op.submit 9, Op.report] rfl

/-- C10: whenever the program marks a partition occupied — directly in
`allocateJob` or during a sweep step of `tryAllocateWaiting` — the chosen
index came from the best-fit search, so the target partition was free
with capacity at least the job's size, and the computed internal fragment
is never negative: the `place` precondition of the spec always holds. -/
theorem spec_C10_place_precondition (mem : List Partition) (js : Int) (i : Nat)
    (s : SimState) (job : Job) (j : Job) (rem : List Job) :
    (findBestFit mem js = some i →
      ∃ p : Partition, mem[i]? = some p ∧ p.isFree = true ∧ js ≤ p.size ∧
        0 ≤ p.size - js) ∧
    (findBestFit s.memory job.jobSize = some i →
      (allocateJob s job).memory = placeAt job s.memory i ∧
      ∃ p : Partition, s.memory[i]? = some p ∧
        (placeAt job s.memory i)[i]? =
          some { p with isFree := false, jobNumber := job.jobNumber,
                        jobSize := job.jobSize,
                        internalFragment := p.size - job.jobSize } ∧
        0 ≤ p.size - job.jobSize) ∧
    (findBestFit mem j.jobSize = some i →
      sweepStep (mem, rem) j = (placeAt j mem i, rem) ∧
      ∃ p : Partition, mem[i]? = some p ∧ p.isFree = true ∧ 0 ≤ p.size - j.jobSize) := by
  refine ⟨?_, ?_, ?_⟩
  · intro h
    rcases findBestFit_free mem js i h with ⟨p, hget, hf, hsz⟩
    exact ⟨p, hget, hf, hsz, by omega⟩
  · intro h
    rcases findBestFit_free s.memory job.jobSize i h with ⟨p, hget, hf, hsz⟩
    exact ⟨by simp [allocateJob, h], p, hget,
      placeAt_getElem_self job s.memory i p hget, by omega⟩
  · intro h
    rcases findBestFit_free mem j.jobSize i h with ⟨p, hget, hf, hsz⟩
    exact ⟨by simp [sweepStep, h], p, hget, hf, by omega⟩

/-- Witness for C10: placing size 4 into the demo pool targets the free
capacity-4 partition at index 1, and its fragment is non-negative. -/
theorem spec_C10_witness :
    ∃ p : Partition, demoPool[1]? = some p ∧ p.isFree = true ∧ (4 : Int) ≤ p.size ∧
      0 ≤ p.size - 4 :=
  (spec_C10_place_precondition demoPool 4 1 demoState
    { jobNumber := 1, jobSize := 4 } { jobNumber := 1, jobSize := 4 } []).1 (by decide)
